import Mathlib

/-!
Shallow embedding of the automatic graph-layout engine of the
evennia-room-editor repository.

The main function modelled is `calculateAutoLayout` from
`src/components/load-rooms-modal.tsx` (the `layout-utils` module), together
with the inline semicircle placement variant of `handleLoadRooms` in the
room-loading code.  JavaScript objects used as string-keyed dictionaries are
modelled as association lists with in-place update (`setKey`); a JavaScript
`TypeError` raised by indexing a missing key and calling `push` on the result
is modelled by `Option` (`none` = the layout pass aborts with an exception).
Numbers are modelled as real numbers; `Math.cos`/`Math.sin` as `Real.cos` and
`Real.sin`.
-/

namespace RoomEditor

/-- Position record `{x, y}` of a react-flow node. -/
structure Pos where
  x : ℝ
  y : ℝ

/-- Graph node: string id, current position, uninterpreted payload (`data`). -/
structure Node (α : Type) where
  id : String
  position : Pos
  data : α

/-- Graph edge: string id, endpoint ids, optional handle identifiers and an
uninterpreted payload (`data`). -/
structure Edge (β : Type) where
  id : String
  source : String
  target : String
  sourceHandle : Option String
  targetHandle : Option String
  data : β

/-- A JavaScript object used as a dictionary with string keys, in insertion
order. -/
abbrev AssocMap (α : Type) := List (String × α)

/-- Dictionary lookup `m[k]`: `none` models the JavaScript value
`undefined`. -/
def getKey {α : Type} : AssocMap α → String → Option α
  | [], _ => none
  | (k0, v0) :: rest, k => if k0 = k then some v0 else getKey rest k

/-- Dictionary assignment `m[k] = v`: overwrite in place when the key exists,
otherwise append a fresh entry. -/
def setKey {α : Type} : AssocMap α → String → α → AssocMap α
  | [], k, v => [(k, v)]
  | (k0, v0) :: rest, k, v =>
    if k0 = k then (k, v) :: rest else (k0, v0) :: setKey rest k v

@[simp] theorem getKey_nil {α : Type} (k : String) : getKey ([] : AssocMap α) k = none := rfl

theorem getKey_cons {α : Type} (k0 k : String) (v0 : α) (rest : AssocMap α) :
    getKey ((k0, v0) :: rest) k = if k0 = k then some v0 else getKey rest k := rfl

@[simp] theorem getKey_setKey_self {α : Type} (m : AssocMap α) (k : String) (v : α) :
    getKey (setKey m k v) k = some v := by
  induction m with
  | nil => simp [setKey, getKey]
  | cons p rest ih =>
    obtain ⟨k0, v0⟩ := p
    by_cases h : k0 = k <;> simp [setKey, getKey, h, ih]

@[simp] theorem getKey_setKey_ne {α : Type} (m : AssocMap α) (k k1 : String) (v : α)
    (hne : k ≠ k1) : getKey (setKey m k v) k1 = getKey m k1 := by
  induction m with
  | nil => simp [setKey, getKey, hne]
  | cons p rest ih =>
    obtain ⟨k0, v0⟩ := p
    by_cases h : k0 = k
    · subst h
      simp [setKey, getKey, hne]
    · simp only [setKey, if_neg h]
      by_cases h1 : k0 = k1 <;> simp [getKey, h1, ih]

/-- Keys never disappear under assignment. -/
theorem isSome_getKey_setKey {α : Type} (m : AssocMap α) (k k1 : String) (v : α)
    (h : (getKey m k1).isSome) : (getKey (setKey m k v) k1).isSome := by
  by_cases hk : k = k1
  · subst hk; simp
  · rwa [getKey_setKey_ne m k k1 v hk]

/-- Layout constant `horizontalSpacing = 300` (shared by both layout code
sites). -/
def horizontalSpacing : ℝ := 300

/-- Layout constant `verticalSpacing = 200`. -/
def verticalSpacing : ℝ := 200

/-- Initial pass of `calculateAutoLayout` over `allNodes`: store every
existing node position (`nodePositions[node.id] = node.position`). -/
def initPositions {α : Type} (allNodes : List (Node α)) : AssocMap Pos :=
  allNodes.foldl (fun m n => setKey m n.id n.position) []

/-- Initial pass over `allNodes` for the adjacency maps: an empty neighbour
list per node id. -/
def initGraph {α : Type} (allNodes : List (Node α)) : AssocMap (List String) :=
  allNodes.foldl (fun m n => setKey m n.id []) []

/-- Model of `m[k].push(v)`: when `k` is absent, `m[k]` is `undefined` and
`undefined.push(v)` raises a `TypeError`, modelled as `none`. -/
def pushKey (m : AssocMap (List String)) (k v : String) : Option (AssocMap (List String)) :=
  (getKey m k).map (fun l => setKey m k (l ++ [v]))

/-- The `allEdges.forEach` loop filling `graphOut`/`graphIn`:
`graphOut[edge.source].push(edge.target); graphIn[edge.target].push(edge.source)`.
The result is `none` as soon as an edge references an id absent from the maps
(the JavaScript code throws there). -/
def buildConnections {β : Type} (graphIn graphOut : AssocMap (List String)) :
    List (Edge β) → Option (AssocMap (List String) × AssocMap (List String))
  | [] => some (graphIn, graphOut)
  | e :: rest =>
    (pushKey graphOut e.source e.target).bind (fun gout =>
      (pushKey graphIn e.target e.source).bind (fun gin =>
        buildConnections gin gout rest))

/-- The guard `startNodeId && allNodes.some((node) => node.id === startNodeId)`:
a supplied start id is honoured only when it is truthy (non-empty string) and
present among the node ids. -/
def startRootCheck {α : Type} (allNodes : List (Node α)) : Option String → Bool
  | none => false
  | some s => !(s == "") && allNodes.any (fun n => n.id == s)

/-- The `allNodes.forEach` collecting every node whose incoming-neighbour
list is empty (`graphIn[node.id].length === 0`). -/
def zeroInDegreeRoots {α : Type} (allNodes : List (Node α))
    (graphIn : AssocMap (List String)) : List String :=
  (allNodes.filter
    (fun n => ((getKey graphIn n.id).getD []).isEmpty)).map (fun n => n.id)

/-- Root selection of `calculateAutoLayout`: the checked start node alone,
else all nodes with an empty incoming-neighbour list, else the first node
when the node list is non-empty. -/
def rootNodeIds {α : Type} (allNodes : List (Node α)) (graphIn : AssocMap (List String))
    (startNodeId : Option String) : List String :=
  if startRootCheck allNodes startNodeId then
    [startNodeId.getD ""]
  else
    let roots := zeroInDegreeRoots allNodes graphIn
    if roots.isEmpty then
      match allNodes with
      | [] => roots
      | n :: _ => [n.id]
    else roots

/-- Root placement: `nodePositions[nodeId] = { x: index * horizontalSpacing, y: 100 }`. -/
def placeRoots (positions : AssocMap Pos) (roots : List String) : AssocMap Pos :=
  roots.enum.foldl
    (fun m p => setKey m p.2 ⟨(p.1 : ℝ) * horizontalSpacing, 100⟩) positions

/-- Semicircle placement of `calculateAutoLayout`: child at `index` of
`count` children of a parent at `parentPos` goes to angle
`π/(count+1) · (index+1)`, with
`x = parent.x + (horizontalSpacing / 2) · cos(angle)` and
`y = parent.y + verticalSpacing · sin(angle)`. -/
noncomputable def childPos (parentPos : Pos) (count index : ℕ) : Pos :=
  ⟨parentPos.x + (horizontalSpacing / 2) * Real.cos ((Real.pi / (count + 1)) * (index + 1)),
   parentPos.y + verticalSpacing * Real.sin ((Real.pi / (count + 1)) * (index + 1))⟩

/-- Semicircle placement of the inline layout variant in `handleLoadRooms`:
same angles, but a single `radius = horizontalSpacing` on both axes. -/
noncomputable def variantChildPos (parentPos : Pos) (count index : ℕ) : Pos :=
  ⟨parentPos.x + horizontalSpacing * Real.cos ((Real.pi / (count + 1)) * (index + 1)),
   parentPos.y + horizontalSpacing * Real.sin ((Real.pi / (count + 1)) * (index + 1))⟩

/-- One BFS wave: `children.forEach` places each child, marks it positioned
and appends it to the queue. The state is (positions, positionedIds, queue). -/
noncomputable def placeChildren (parentPos : Pos) (children : List String)
    (positions : AssocMap Pos) (positioned : List String) (queue : List String) :
    AssocMap Pos × List String × List String :=
  children.enum.foldl
    (fun st p =>
      (setKey st.1 p.2 (childPos parentPos children.length p.1),
       p.2 :: st.2.1,
       st.2.2 ++ [p.2]))
    (positions, positioned, queue)

/-- The BFS `while (queue.length > 0)` loop, with explicit fuel (the
JavaScript loop terminates because every id is enqueued at most once per
occurrence in an adjacency list). A dequeued id with no stored position is
skipped (`if (!nodePositions[currentId]) continue`); otherwise its
not-yet-positioned out-neighbours are placed around it. -/
noncomputable def bfsLoop (graphOut : AssocMap (List String)) :
    ℕ → AssocMap Pos → List String → List String → AssocMap Pos × List String
  | 0, positions, positioned, _ => (positions, positioned)
  | _ + 1, positions, positioned, [] => (positions, positioned)
  | fuel + 1, positions, positioned, currentId :: rest =>
    match getKey positions currentId with
    | none => bfsLoop graphOut fuel positions positioned rest
    | some parentPos =>
      let children := ((getKey graphOut currentId).getD []).filter
        (fun id => !(positioned.contains id))
      let st := placeChildren parentPos children positions positioned rest
      bfsLoop graphOut fuel st.1 st.2.1 st.2.2

/-- `Math.max(...Object.values(nodePositions).map((p) => p.x), 0)`. -/
def maxXOf (positions : AssocMap Pos) : ℝ :=
  (positions.map (fun p => p.2.x)).foldr max 0

/-- Fallback placement of the nodes the BFS never reached: each gets
`x = maxX + horizontalSpacing` (with `maxX` recomputed as the map grows) and
`y = 100 + index * verticalSpacing`. The source also computes a `maxY` it
never uses. -/
def placeFallback {α : Type} (allNodes : List (Node α)) (positions : AssocMap Pos)
    (positioned : List String) : AssocMap Pos :=
  ((allNodes.filter (fun n => !(positioned.contains n.id))).enum).foldl
    (fun m p =>
      setKey m p.2.id ⟨maxXOf m + horizontalSpacing, 100 + (p.1 : ℝ) * verticalSpacing⟩)
    positions

/-- The reverse-edge check
`allEdges.some((e) => e.source === edge.target && e.target === edge.source)`. -/
def hasReverseEdge {β : Type} (allEdges : List (Edge β)) (edge : Edge β) : Bool :=
  allEdges.any (fun e => e.source == edge.target && e.target == edge.source)

/-- Handle assignment for a single edge. When either endpoint has no stored
position the edge is returned unchanged; otherwise the dominant axis of the
position difference picks the handle pair, and the member of a bidirectional
pair whose source id sorts greater than its target id is redirected to the
opposite-axis handles. -/
noncomputable def assignHandles {β : Type} (positions : AssocMap Pos)
    (allEdges : List (Edge β)) (edge : Edge β) : Edge β :=
  match getKey positions edge.source, getKey positions edge.target with
  | some sourcePos, some targetPos =>
    let xDiff := targetPos.x - sourcePos.x
    let yDiff := targetPos.y - sourcePos.y
    let hasRev := hasReverseEdge allEdges edge
    let handles : String × String :=
      if |xDiff| ≥ |yDiff| then
        if hasRev ∧ edge.target < edge.source then
          if yDiff ≥ 0 then ("top-source", "top-target")
          else ("bottom-source", "bottom-target")
        else if xDiff > 0 then ("right-source", "left-target")
        else ("left-source", "right-target")
      else
        if hasRev ∧ edge.target < edge.source then
          if xDiff ≥ 0 then ("right-source", "right-target")
          else ("left-source", "left-target")
        else if yDiff > 0 then ("bottom-source", "top-target")
        else ("top-source", "bottom-target")
    { edge with sourceHandle := some handles.1, targetHandle := some handles.2 }
  | _, _ => edge

/-- The full `calculateAutoLayout(allNodes, allEdges, startNodeId?)`.
`none` models the JavaScript function raising (which happens exactly when an
edge references an id outside the node set). -/
noncomputable def calculateAutoLayout {α β : Type} (allNodes : List (Node α))
    (allEdges : List (Edge β)) (startNodeId : Option String) :
    Option (AssocMap Pos × List (Edge β)) :=
  match buildConnections (initGraph allNodes) (initGraph allNodes) allEdges with
  | none => none
  | some (graphIn, graphOut) =>
    let roots := rootNodeIds allNodes graphIn startNodeId
    let positions1 := placeRoots (initPositions allNodes) roots
    let st := bfsLoop graphOut (allNodes.length + allEdges.length + 1) positions1 roots roots
    let positions2 := placeFallback allNodes st.1 st.2
    some (positions2, allEdges.map (assignHandles positions2 allEdges))

/-! ### Generic lemmas about folded `setKey` updates -/

theorem getKey_foldl_of_ne {γ δ : Type} (key : γ → String) (val : AssocMap δ → γ → δ)
    (l : List γ) (m : AssocMap δ) (c : String) (h : ∀ i ∈ l, key i ≠ c) :
    getKey (l.foldl (fun m i => setKey m (key i) (val m i)) m) c = getKey m c := by
  induction l generalizing m with
  | nil => rfl
  | cons a rest ih =>
    simp only [List.foldl_cons]
    rw [ih _ (fun i hi => h i (List.mem_cons_of_mem a hi))]
    exact getKey_setKey_ne _ _ _ _ (h a (List.mem_cons_self a rest))

theorem isSome_getKey_foldl {γ δ : Type} (key : γ → String) (val : AssocMap δ → γ → δ)
    (l : List γ) (m : AssocMap δ) (c : String) (h : (getKey m c).isSome) :
    (getKey (l.foldl (fun m i => setKey m (key i) (val m i)) m) c).isSome := by
  induction l generalizing m with
  | nil => exact h
  | cons a rest ih => exact ih _ (isSome_getKey_setKey _ _ _ _ h)

theorem isSome_getKey_foldl_self {γ δ : Type} (key : γ → String) (val : AssocMap δ → γ → δ)
    (l : List γ) (m : AssocMap δ) (i : γ) (hi : i ∈ l) :
    (getKey (l.foldl (fun m i => setKey m (key i) (val m i)) m) (key i)).isSome := by
  induction l generalizing m with
  | nil => cases hi
  | cons a rest ih =>
    simp only [List.foldl_cons]
    rcases List.mem_cons.mp hi with h | h
    · subst h
      exact isSome_getKey_foldl key val rest _ _ (by simp)
    · exact ih _ h

/-! ### Stage lemmas -/

theorem isSome_getKey_initPositions {α : Type} (allNodes : List (Node α)) (n : Node α)
    (hn : n ∈ allNodes) : (getKey (initPositions allNodes) n.id).isSome := by
  unfold initPositions
  exact isSome_getKey_foldl_self (fun n => n.id) (fun _ n => n.position) allNodes [] n hn

theorem isSome_getKey_initGraph {α : Type} (allNodes : List (Node α)) (k : String)
    (hk : k ∈ allNodes.map Node.id) : (getKey (initGraph allNodes) k).isSome := by
  obtain ⟨n, hn, rfl⟩ := List.mem_map.mp hk
  unfold initGraph
  exact isSome_getKey_foldl_self (fun n => n.id) (fun _ _ => []) allNodes [] n hn

theorem getKey_initGraph_none {α : Type} (allNodes : List (Node α)) (k : String)
    (hk : k ∉ allNodes.map Node.id) : getKey (initGraph allNodes) k = none := by
  have h : ∀ n ∈ allNodes, n.id ≠ k := by
    intro n hn he
    exact hk (he ▸ List.mem_map_of_mem Node.id hn)
  unfold initGraph
  exact getKey_foldl_of_ne (fun n => n.id) (fun _ _ => []) allNodes [] k h

theorem pushKey_isSome_iff (m m2 : AssocMap (List String)) (k v k1 : String)
    (h : pushKey m k v = some m2) : (getKey m2 k1).isSome ↔ (getKey m k1).isSome := by
  unfold pushKey at h
  cases hg : getKey m k with
  | none => rw [hg] at h; cases h
  | some l =>
    rw [hg] at h
    injection h with h
    subst h
    by_cases hk : k = k1
    · subst hk; simp [hg]
    · rw [getKey_setKey_ne _ _ _ _ hk]

theorem pushKey_none_iff (m m2 : AssocMap (List String)) (k v k1 : String)
    (h : pushKey m k v = some m2) : getKey m2 k1 = none ↔ getKey m k1 = none := by
  rw [← Option.not_isSome_iff_eq_none, ← Option.not_isSome_iff_eq_none,
    not_iff_not]
  exact_mod_cast pushKey_isSome_iff m m2 k v k1 h

theorem buildConnections_some {β : Type} (edges : List (Edge β))
    (gin gout : AssocMap (List String))
    (h : ∀ e ∈ edges, (getKey gout e.source).isSome ∧ (getKey gin e.target).isSome) :
    ∃ gg, buildConnections gin gout edges = some gg := by
  induction edges generalizing gin gout with
  | nil => exact ⟨(gin, gout), rfl⟩
  | cons e rest ih =>
    obtain ⟨hs, ht⟩ := h e (List.mem_cons_self e rest)
    obtain ⟨lo, hlo⟩ := Option.isSome_iff_exists.mp hs
    obtain ⟨li, hli⟩ := Option.isSome_iff_exists.mp ht
    have hps : pushKey gout e.source e.target = some (setKey gout e.source (lo ++ [e.target])) := by
      simp [pushKey, hlo]
    have hpt : pushKey gin e.target e.source = some (setKey gin e.target (li ++ [e.source])) := by
      simp [pushKey, hli]
    have hrest : ∀ e2 ∈ rest,
        (getKey (setKey gout e.source (lo ++ [e.target])) e2.source).isSome ∧
        (getKey (setKey gin e.target (li ++ [e.source])) e2.target).isSome := by
      intro e2 he2
      obtain ⟨h1, h2⟩ := h e2 (List.mem_cons_of_mem e he2)
      exact ⟨(pushKey_isSome_iff _ _ _ _ _ hps).mpr h1,
        (pushKey_isSome_iff _ _ _ _ _ hpt).mpr h2⟩
    obtain ⟨gg, hgg⟩ := ih _ _ hrest
    exact ⟨gg, by simp [buildConnections, hps, hpt, hgg]⟩

theorem buildConnections_none {β : Type} (edges : List (Edge β))
    (gin gout : AssocMap (List String)) (e : Edge β) (he : e ∈ edges)
    (hd : getKey gout e.source = none ∨ getKey gin e.target = none) :
    buildConnections gin gout edges = none := by
  induction edges generalizing gin gout with
  | nil => cases he
  | cons e0 rest ih =>
    rcases List.mem_cons.mp he with rfl | hmem
    · rcases hd with hd | hd
      · simp [buildConnections, pushKey, hd]
      · cases hg : pushKey gout e.source e.target with
        | none => simp [buildConnections, hg]
        | some gout2 => simp [buildConnections, hg, pushKey, hd]
    · cases hg1 : pushKey gout e0.source e0.target with
      | none => simp [buildConnections, hg1]
      | some gout2 =>
        cases hg2 : pushKey gin e0.target e0.source with
        | none => simp [buildConnections, hg1, hg2]
        | some gin2 =>
          have hd2 : getKey gout2 e.source = none ∨ getKey gin2 e.target = none := by
            rcases hd with hd | hd
            · exact Or.inl ((pushKey_none_iff _ _ _ _ _ hg1).mpr hd)
            · exact Or.inr ((pushKey_none_iff _ _ _ _ _ hg2).mpr hd)
          simp only [buildConnections, hg1, hg2, Option.some_bind]
          exact ih gin2 gout2 hmem hd2

theorem foldl_wave_fst (pp : Pos) (cnt : ℕ) (l : List (ℕ × String)) (m : AssocMap Pos)
    (a q : List String) :
    (l.foldl (fun st p =>
        (setKey st.1 p.2 (childPos pp cnt p.1), p.2 :: st.2.1, st.2.2 ++ [p.2])) (m, a, q)).1
      = l.foldl (fun m p => setKey m p.2 (childPos pp cnt p.1)) m := by
  induction l generalizing m a q with
  | nil => rfl
  | cons x rest ih => simpa using ih _ _ _

theorem placeChildren_positions (parentPos : Pos) (children : List String)
    (m : AssocMap Pos) (a q : List String) :
    (placeChildren parentPos children m a q).1
      = children.enum.foldl
          (fun m p => setKey m p.2 (childPos parentPos children.length p.1)) m :=
  foldl_wave_fst parentPos children.length children.enum m a q

theorem isSome_getKey_placeChildren (parentPos : Pos) (children : List String)
    (m : AssocMap Pos) (a q : List String) (k : String) (h : (getKey m k).isSome) :
    (getKey (placeChildren parentPos children m a q).1 k).isSome := by
  rw [placeChildren_positions]
  exact isSome_getKey_foldl (fun p => p.2)
    (fun _ p => childPos parentPos children.length p.1) children.enum m k h

theorem isSome_getKey_bfsLoop (gout : AssocMap (List String)) (fuel : ℕ)
    (positions : AssocMap Pos) (positioned queue : List String) (k : String)
    (h : (getKey positions k).isSome) :
    (getKey (bfsLoop gout fuel positions positioned queue).1 k).isSome := by
  induction fuel generalizing positions positioned queue with
  | zero => exact h
  | succ fuel ih =>
    cases queue with
    | nil => exact h
    | cons currentId rest =>
      cases hc : getKey positions currentId with
      | none =>
        simp only [bfsLoop, hc]
        exact ih _ _ _ h
      | some parentPos =>
        simp only [bfsLoop, hc]
        exact ih _ _ _ (isSome_getKey_placeChildren _ _ _ _ _ _ h)

theorem isSome_getKey_placeFallback {α : Type} (allNodes : List (Node α))
    (positions : AssocMap Pos) (positioned : List String) (k : String)
    (h : (getKey positions k).isSome) :
    (getKey (placeFallback allNodes positions positioned) k).isSome := by
  unfold placeFallback
  exact isSome_getKey_foldl (fun p : ℕ × Node α => p.2.id)
    (fun (m : AssocMap Pos) (p : ℕ × Node α) =>
      (⟨maxXOf m + horizontalSpacing, 100 + (p.1 : ℝ) * verticalSpacing⟩ : Pos))
    _ positions k h

theorem isSome_getKey_placeRoots (positions : AssocMap Pos) (roots : List String)
    (k : String) (h : (getKey positions k).isSome) :
    (getKey (placeRoots positions roots) k).isSome := by
  unfold placeRoots
  exact isSome_getKey_foldl (fun p => p.2)
    (fun _ p => ⟨(p.1 : ℝ) * horizontalSpacing, 100⟩) roots.enum positions k h

/-- C6: on well-formed input (every edge endpoint among the node ids) the
layout pass succeeds and the returned position map has an entry for every
supplied node. -/
theorem layout_covers_all_nodes {α β : Type} (allNodes : List (Node α))
    (allEdges : List (Edge β)) (startNodeId : Option String)
    (wf : ∀ e ∈ allEdges, e.source ∈ allNodes.map Node.id ∧ e.target ∈ allNodes.map Node.id) :
    ∃ r, calculateAutoLayout allNodes allEdges startNodeId = some r ∧
      ∀ n ∈ allNodes, (getKey r.1 n.id).isSome := by
  obtain ⟨⟨gin, gout⟩, hgg⟩ :=
    buildConnections_some allEdges (initGraph allNodes) (initGraph allNodes)
      (fun e he => ⟨isSome_getKey_initGraph allNodes e.source (wf e he).1,
        isSome_getKey_initGraph allNodes e.target (wf e he).2⟩)
  set roots := rootNodeIds allNodes gin startNodeId with hroots
  set st := bfsLoop gout (allNodes.length + allEdges.length + 1)
      (placeRoots (initPositions allNodes) roots) roots roots with hst
  set pf := placeFallback allNodes st.1 st.2 with hpf
  have hcal : calculateAutoLayout allNodes allEdges startNodeId
      = some (pf, allEdges.map (assignHandles pf allEdges)) := by
    unfold calculateAutoLayout
    rw [hgg]
  refine ⟨_, hcal, ?_⟩
  intro n hn
  rw [hpf, hst]
  exact isSome_getKey_placeFallback _ _ _ _
    (isSome_getKey_bfsLoop _ _ _ _ _ _
      (isSome_getKey_placeRoots _ _ _
        (isSome_getKey_initPositions allNodes n hn)))

/-- Witness for C6 at a concrete two-node, one-edge input. -/
theorem layout_covers_all_nodes_witness :
    ∃ r, calculateAutoLayout (α := Unit) (β := Unit)
        [⟨"a", ⟨0, 0⟩, ()⟩, ⟨"b", ⟨0, 0⟩, ()⟩]
        [⟨"e1", "a", "b", none, none, ()⟩] none = some r ∧
      ∀ n ∈ [⟨"a", ⟨0, 0⟩, ()⟩, ⟨"b", ⟨0, 0⟩, ()⟩],
        (getKey r.1 (Node.id (α := Unit) n)).isSome :=
  layout_covers_all_nodes _ _ none (by decide)

/-- C1 (amended): an edge whose source or target id is missing from the node
set makes the adjacency-map construction index an undefined entry, so the
whole layout pass throws (`none`) instead of skipping the edge. -/
theorem layout_throws_on_dangling_edge {α β : Type} (allNodes : List (Node α))
    (allEdges : List (Edge β)) (startNodeId : Option String) (e : Edge β)
    (he : e ∈ allEdges)
    (hd : e.source ∉ allNodes.map Node.id ∨ e.target ∉ allNodes.map Node.id) :
    calculateAutoLayout allNodes allEdges startNodeId = none := by
  have hbc : buildConnections (initGraph allNodes) (initGraph allNodes) allEdges = none := by
    apply buildConnections_none allEdges _ _ e he
    rcases hd with hd | hd
    · exact Or.inl (getKey_initGraph_none allNodes _ hd)
    · exact Or.inr (getKey_initGraph_none allNodes _ hd)
  unfold calculateAutoLayout
  rw [hbc]

/-- Witness for the amended C1 at a concrete input. -/
theorem layout_throws_on_dangling_edge_witness :
    calculateAutoLayout (α := Unit) (β := Unit) [⟨"a", ⟨0, 0⟩, ()⟩]
      [⟨"e1", "a", "b", none, none, ()⟩] none = none :=
  layout_throws_on_dangling_edge _ _ none _ (List.mem_cons_self _ _) (by decide)

/-- C1 counterexample: an edge targeting the missing id "b" does not get
skipped; the layout pass fails to complete (the claim asserts it completes
without an exception). -/
theorem dangling_edge_crash_counterexample :
    calculateAutoLayout (α := Unit) (β := Unit) [⟨"a", ⟨0, 0⟩, ()⟩]
      [⟨"e2", "a", "b", none, none, ()⟩] none = none := rfl

/-- C2 counterexample: the unique node carries the pre-existing position
(5, 7), yet the returned entry for it is (0, 100): pre-positioned nodes are
repositioned. -/
theorem preexisting_position_overwritten_counterexample :
    (calculateAutoLayout (α := Unit) (β := Unit) [⟨"a", ⟨5, 7⟩, ()⟩] [] none).map
        (fun r => getKey r.1 "a") = some (some ⟨0, 100⟩) ∧
      Pos.mk 0 100 ≠ Pos.mk 5 7 := by
  constructor
  · have h : (calculateAutoLayout (α := Unit) (β := Unit) [⟨"a", ⟨5, 7⟩, ()⟩] [] none).map
        (fun r => getKey r.1 "a") = some (some ⟨((0 : ℕ) : ℝ) * horizontalSpacing, 100⟩) := rfl
    rw [h]
    simp [Pos.mk.injEq]
  · intro h
    have hx := congrArg Pos.x h
    norm_num at hx

/-- C2 (amended): `calculateAutoLayout` overwrites pre-existing positions; a
sole node is always returned at the first root slot (0, 100), whatever
position and payload it carried on input. -/
theorem sole_node_repositioned {α : Type} (p : Pos) (d : α) :
    (calculateAutoLayout (β := Unit) [⟨"a", p, d⟩] [] none).map (fun r => getKey r.1 "a")
      = some (some ⟨0, 100⟩) := by
  have h : (calculateAutoLayout (β := Unit) [⟨"a", p, d⟩] [] none).map (fun r => getKey r.1 "a")
      = some (some ⟨((0 : ℕ) : ℝ) * horizontalSpacing, 100⟩) := rfl
  rw [h]
  simp [Pos.mk.injEq]

/-- C5 counterexample: the start id is supplied (as the empty string) and is
present among the node ids, yet root selection does not make it the sole
root — the JavaScript truthiness guard rejects the empty string and falls
through to the zero-in-degree rule, which yields both nodes. -/
theorem root_selection_counterexample :
    ("" ∈ ([⟨"", ⟨0, 0⟩, ()⟩, ⟨"a", ⟨0, 0⟩, ()⟩] : List (Node Unit)).map Node.id) ∧
    rootNodeIds ([⟨"", ⟨0, 0⟩, ()⟩, ⟨"a", ⟨0, 0⟩, ()⟩] : List (Node Unit))
      (initGraph ([⟨"", ⟨0, 0⟩, ()⟩, ⟨"a", ⟨0, 0⟩, ()⟩] : List (Node Unit))) (some "")
      = ["", "a"] ∧
    (["", "a"] : List String) ≠ [""] := by
  refine ⟨by decide, by decide, by decide⟩

/-- C5 (amended): root selection follows the three ordered rules, with the
first rule conditioned on the supplied start id being a non-empty string:
(1) a non-empty supplied start id present among the node ids is the sole
root; (2) otherwise every node whose incoming list is empty is a root;
(3) otherwise the first node (when one exists) is the sole root. -/
theorem root_selection_rules {α : Type} (allNodes : List (Node α))
    (graphIn : AssocMap (List String)) (start : Option String) :
    (∀ s : String, start = some s → s ≠ "" → s ∈ allNodes.map Node.id →
      rootNodeIds allNodes graphIn start = [s]) ∧
    ((start = none ∨ start = some "" ∨ ∀ s : String, start = some s → s ∉ allNodes.map Node.id) →
      zeroInDegreeRoots allNodes graphIn ≠ [] →
      rootNodeIds allNodes graphIn start = zeroInDegreeRoots allNodes graphIn) ∧
    (∀ (n0 : Node α) (rest : List (Node α)),
      (start = none ∨ start = some "" ∨ ∀ s : String, start = some s → s ∉ allNodes.map Node.id) →
      zeroInDegreeRoots allNodes graphIn = [] → allNodes = n0 :: rest →
      rootNodeIds allNodes graphIn start = [n0.id]) := by
  have hfalse : ∀ (hs : start = none ∨ start = some "" ∨
      ∀ s : String, start = some s → s ∉ allNodes.map Node.id),
      startRootCheck allNodes start = false := by
    intro hs
    rcases hs with rfl | rfl | hs
    · rfl
    · simp [startRootCheck]
    · cases start with
      | none => rfl
      | some s =>
        have := hs s rfl
        simp only [startRootCheck, Bool.and_eq_false_imp]
        intro _
        simp only [List.any_eq_false]
        intro n hn
        simp only [beq_iff_eq]
        intro he
        exact this (he ▸ List.mem_map_of_mem Node.id hn)
  refine ⟨?_, ?_, ?_⟩
  · rintro s rfl hne hmem
    have hcheck : startRootCheck allNodes (some s) = true := by
      simp only [startRootCheck, Bool.and_eq_true, bne, Bool.not_eq_false']
      constructor
      · simpa using hne
      · obtain ⟨n, hn, rfl⟩ := List.mem_map.mp hmem
        exact List.any_eq_true.mpr ⟨n, hn, by simp⟩
    simp [rootNodeIds, hcheck]
  · intro hs hz
    have hcheck := hfalse hs
    simp [rootNodeIds, hcheck, List.isEmpty_iff, hz]
  · intro n0 rest hs hz hcons
    have hcheck := hfalse hs
    subst hcons
    simp [rootNodeIds, hcheck, hz, List.isEmpty_iff]

/-- Witness for the amended C5: rule 1 at a concrete input. -/
theorem root_selection_rules_witness :
    rootNodeIds ([⟨"a", ⟨0, 0⟩, ()⟩, ⟨"b", ⟨0, 0⟩, ()⟩] : List (Node Unit))
      (initGraph ([⟨"a", ⟨0, 0⟩, ()⟩, ⟨"b", ⟨0, 0⟩, ()⟩] : List (Node Unit)))
      (some "b") = ["b"] :=
  (root_selection_rules _ _ (some "b")).1 "b" rfl (by decide) (by decide)

/-! ### Placement of one BFS wave -/

theorem getKey_wave_foldl_not_mem (pp : Pos) (cnt : ℕ) (l : List String) (i : ℕ)
    (m : AssocMap Pos) (c : String) (h : c ∉ l) :
    getKey ((List.enumFrom i l).foldl
        (fun m p => setKey m p.2 (childPos pp cnt p.1)) m) c = getKey m c := by
  induction l generalizing i m with
  | nil => rfl
  | cons a rest ih =>
    simp only [List.enumFrom, List.foldl_cons]
    rw [ih (i + 1) _ (fun hc => h (List.mem_cons_of_mem a hc))]
    exact getKey_setKey_ne _ _ _ _ (fun he => h (he ▸ List.mem_cons_self a rest))

theorem getKey_wave_foldl (pp : Pos) (cnt : ℕ) (l : List String) (i : ℕ)
    (m : AssocMap Pos) (k : ℕ) (c : String) (hk : l[k]? = some c)
    (hlast : ∀ j, j < l.length → k < j → l[j]? ≠ some c) :
    getKey ((List.enumFrom i l).foldl
        (fun m p => setKey m p.2 (childPos pp cnt p.1)) m) c
      = some (childPos pp cnt (i + k)) := by
  induction l generalizing i m k with
  | nil => simp at hk
  | cons a rest ih =>
    simp only [List.enumFrom, List.foldl_cons]
    cases k with
    | zero =>
      have hac : a = c := by simpa using hk
      subst hac
      have hnm : a ∉ rest := by
        intro hmem
        obtain ⟨j, hjlt, hj⟩ := List.mem_iff_getElem.mp hmem
        have hj? : rest[j]? = some a := by simp [List.getElem?_eq_some, hjlt, hj]
        exact hlast (j + 1) (by simpa using Nat.succ_lt_succ hjlt) (Nat.succ_pos j)
          (by simpa using hj?)
      rw [getKey_wave_foldl_not_mem _ _ _ _ _ _ hnm]
      simp
    | succ k0 =>
      have hk0 : rest[k0]? = some c := by simpa using hk
      have hlast0 : ∀ j, j < rest.length → k0 < j → rest[j]? ≠ some c := by
        intro j hjl hj
        have := hlast (j + 1) (by simpa using Nat.succ_lt_succ hjl) (Nat.succ_lt_succ hj)
        simpa using this
      rw [ih (i + 1) _ k0 hk0 hlast0]
      rw [show i + 1 + k0 = i + (k0 + 1) from by omega]

/-- Lookup in the position map after one BFS wave: the child found last at
index `k` of the children list is stored at `childPos parent n k`. -/
theorem getKey_placeChildren (parentPos : Pos) (children : List String)
    (positions : AssocMap Pos) (positioned queue : List String) (k : ℕ) (c : String)
    (hk : children[k]? = some c)
    (hlast : ∀ j, j < children.length → k < j → children[j]? ≠ some c) :
    getKey (placeChildren parentPos children positions positioned queue).1 c
      = some (childPos parentPos children.length k) := by
  rw [placeChildren_positions]
  have h := getKey_wave_foldl parentPos children.length children 0 positions k c hk hlast
  simpa [List.enum] using h

/-- Distinct child indices below the fan-out give distinct placements: the
angles lie in `(0, π)` where the cosine is injective, so the x-coordinates
differ. -/
theorem childPos_index_inj (p : Pos) (n j k : ℕ) (hj : j < n) (hk : k < n)
    (hne : j ≠ k) : childPos p n j ≠ childPos p n k := by
  intro h
  have hmem : ∀ i : ℕ, i < n → (Real.pi / (↑n + 1)) * (↑i + 1) ∈ Set.Icc 0 Real.pi := by
    intro i hi
    constructor
    · positivity
    · have hle : (↑i + 1 : ℝ) ≤ ↑n + 1 := by exact_mod_cast Nat.succ_le_succ hi.le
      calc (Real.pi / (↑n + 1)) * (↑i + 1)
          ≤ (Real.pi / (↑n + 1)) * (↑n + 1) := by
            apply mul_le_mul_of_nonneg_left hle (by positivity)
        _ = Real.pi := by field_simp
  have hx := congrArg Pos.x h
  simp only [childPos] at hx
  have hcos : Real.cos ((Real.pi / (↑n + 1)) * (↑j + 1))
      = Real.cos ((Real.pi / (↑n + 1)) * (↑k + 1)) := by
    have h2 := add_left_cancel hx
    exact mul_left_cancel₀ (by norm_num [horizontalSpacing]) h2
  have hθ := Real.injOn_cos (hmem j hj) (hmem k hk) hcos
  have hjk : (↑j + 1 : ℝ) = ↑k + 1 := mul_left_cancel₀ (by positivity) hθ
  exact hne (by exact_mod_cast add_left_injective 1 hjk)

/-- C3 (amended): in `calculateAutoLayout`, the child found last at index
`k` (0-based) among `n` children of a positioned parent `P` is placed at
angle `π/(n+1)·(k+1)` with `x = P.x + (horizontalSpacing/2)·cos(angle)` and
`y = P.y + verticalSpacing·sin(angle)` — two different half-axes, not a
single `horizontalSpacing` radius; the single-radius formula the claim
states is the one of the inline `handleLoadRooms` variant
(`variantChildPos`). -/
theorem bfs_wave_child_position (parentPos : Pos) (children : List String)
    (positions : AssocMap Pos) (positioned queue : List String) (k : ℕ) (c : String)
    (hk : children[k]? = some c)
    (hlast : ∀ j, j < children.length → k < j → children[j]? ≠ some c) :
    getKey (placeChildren parentPos children positions positioned queue).1 c
      = some ⟨parentPos.x + (horizontalSpacing / 2) *
            Real.cos ((Real.pi / (↑children.length + 1)) * (↑k + 1)),
          parentPos.y + verticalSpacing *
            Real.sin ((Real.pi / (↑children.length + 1)) * (↑k + 1))⟩ ∧
    variantChildPos parentPos children.length k
      = ⟨parentPos.x + horizontalSpacing *
            Real.cos ((Real.pi / (↑children.length + 1)) * (↑k + 1)),
          parentPos.y + horizontalSpacing *
            Real.sin ((Real.pi / (↑children.length + 1)) * (↑k + 1))⟩ :=
  ⟨getKey_placeChildren parentPos children positions positioned queue k c hk hlast, rfl⟩

/-- Witness for the amended C3 at a concrete two-child wave. -/
theorem bfs_wave_child_position_witness :
    getKey (placeChildren ⟨0, 0⟩ ["b", "c"] [] [] []).1 "b"
      = some ⟨(0 : ℝ) + (horizontalSpacing / 2) *
            Real.cos ((Real.pi / (↑(["b", "c"] : List String).length + 1)) * (↑(0 : ℕ) + 1)),
          (0 : ℝ) + verticalSpacing *
            Real.sin ((Real.pi / (↑(["b", "c"] : List String).length + 1)) * (↑(0 : ℕ) + 1))⟩ :=
  (bfs_wave_child_position ⟨0, 0⟩ ["b", "c"] [] [] [] 0 "b" (by decide)
    (by decide)).1

/-- C3 counterexample: at a parent on the origin with a single child, the
`calculateAutoLayout` placement differs from the claimed single-radius
semicircle formula (which is `variantChildPos`): the claimed y-offset is
`300·sin(π/2) = 300`, the code computes `200·sin(π/2) = 200`. -/
theorem semicircle_single_radius_counterexample :
    childPos ⟨0, 0⟩ 1 0 ≠ variantChildPos ⟨0, 0⟩ 1 0 := by
  intro h
  have hy := congrArg Pos.y h
  simp only [childPos, variantChildPos] at hy
  have hθ : ((Real.pi / (((1 : ℕ) : ℝ) + 1)) * (((0 : ℕ) : ℝ) + 1)) = Real.pi / 2 := by
    norm_num
  rw [hθ, Real.sin_pi_div_two] at hy
  norm_num [horizontalSpacing, verticalSpacing] at hy

/-- C8: two children placed in the same BFS wave at distinct indices receive
distinct positions. -/
theorem bfs_wave_siblings_distinct (parentPos : Pos) (children : List String)
    (positions : AssocMap Pos) (positioned queue : List String)
    (k1 k2 : ℕ) (c1 c2 : String)
    (h1 : children[k1]? = some c1)
    (h1last : ∀ j, j < children.length → k1 < j → children[j]? ≠ some c1)
    (h2 : children[k2]? = some c2)
    (h2last : ∀ j, j < children.length → k2 < j → children[j]? ≠ some c2)
    (hne : k1 ≠ k2) :
    getKey (placeChildren parentPos children positions positioned queue).1 c1
      ≠ getKey (placeChildren parentPos children positions positioned queue).1 c2 := by
  rw [getKey_placeChildren parentPos children positions positioned queue k1 c1 h1 h1last,
    getKey_placeChildren parentPos children positions positioned queue k2 c2 h2 h2last]
  have hb1 : k1 < children.length := (List.getElem?_eq_some.mp h1).1
  have hb2 : k2 < children.length := (List.getElem?_eq_some.mp h2).1
  intro h
  exact childPos_index_inj parentPos children.length k1 k2 hb1 hb2 hne
    (Option.some.injEq _ _ ▸ h)

/-- Witness for C8 at a concrete two-child wave. -/
theorem bfs_wave_siblings_distinct_witness :
    getKey (placeChildren ⟨0, 0⟩ ["b", "c"] [] [] []).1 "b"
      ≠ getKey (placeChildren ⟨0, 0⟩ ["b", "c"] [] [] []).1 "c" :=
  bfs_wave_siblings_distinct ⟨0, 0⟩ ["b", "c"] [] [] [] 0 1 "b" "c"
    (by decide) (by decide) (by decide) (by decide) (by decide)

/-! ### Edge handle assignment -/

/-- The four primary handle pairs the dominant-axis rule can assign. -/
def primaryPairs : List (Option String × Option String) :=
  [(some "right-source", some "left-target"), (some "left-source", some "right-target"),
   (some "bottom-source", some "top-target"), (some "top-source", some "bottom-target")]

/-- The four opposite-axis handle pairs used for the redirected member of a
bidirectional edge pair. -/
def offsetPairs : List (Option String × Option String) :=
  [(some "top-source", some "top-target"), (some "bottom-source", some "bottom-target"),
   (some "right-source", some "right-target"), (some "left-source", some "left-target")]

/-- The (sourceHandle, targetHandle) pair of an edge. -/
def handlePair {β : Type} (e : Edge β) : Option String × Option String :=
  (e.sourceHandle, e.targetHandle)

theorem primary_offset_disjoint :
    ∀ p ∈ primaryPairs, ∀ q ∈ offsetPairs, p ≠ q := by decide

theorem assignHandles_offset_mem {β : Type} (m : AssocMap Pos) (es : List (Edge β))
    (e : Edge β) (ps pt : Pos)
    (hs : getKey m e.source = some ps) (ht : getKey m e.target = some pt)
    (hrev : hasReverseEdge es e = true) (hgt : e.target < e.source) :
    handlePair (assignHandles m es e) ∈ offsetPairs := by
  simp only [assignHandles, hs, ht]
  split_ifs <;> simp_all [handlePair, offsetPairs]

theorem assignHandles_primary_mem {β : Type} (m : AssocMap Pos) (es : List (Edge β))
    (e : Edge β) (ps pt : Pos)
    (hs : getKey m e.source = some ps) (ht : getKey m e.target = some pt)
    (hnot : ¬(hasReverseEdge es e = true ∧ e.target < e.source)) :
    handlePair (assignHandles m es e) ∈ primaryPairs := by
  simp only [assignHandles, hs, ht]
  split_ifs <;> simp_all [handlePair, primaryPairs]

/-- C4: for a bidirectional pair with distinct endpoints, both positioned,
exactly the member whose source id sorts greater than its target id gets
opposite-axis handles, the other keeps primary dominant-axis handles, and
the two handle pairs are never identical. -/
theorem reverse_pair_exactly_one_offset {β : Type} (positions : AssocMap Pos)
    (allEdges : List (Edge β)) (e1 e2 : Edge β) (ps pt : Pos)
    (h1 : e1 ∈ allEdges) (h2 : e2 ∈ allEdges)
    (hs21 : e2.source = e1.target) (ht21 : e2.target = e1.source)
    (hne : e1.source ≠ e1.target)
    (hp1 : getKey positions e1.source = some ps)
    (hp2 : getKey positions e1.target = some pt) :
    (handlePair (assignHandles positions allEdges e1) ∈ offsetPairs ↔
      e1.target < e1.source) ∧
    (handlePair (assignHandles positions allEdges e2) ∈ offsetPairs ↔
      e1.source < e1.target) ∧
    (handlePair (assignHandles positions allEdges e1) ∈ primaryPairs ↔
      ¬ e1.target < e1.source) ∧
    (handlePair (assignHandles positions allEdges e2) ∈ primaryPairs ↔
      ¬ e1.source < e1.target) ∧
    ¬(handlePair (assignHandles positions allEdges e1) ∈ offsetPairs ∧
      handlePair (assignHandles positions allEdges e2) ∈ offsetPairs) ∧
    (handlePair (assignHandles positions allEdges e1) ∈ offsetPairs ∨
      handlePair (assignHandles positions allEdges e2) ∈ offsetPairs) ∧
    handlePair (assignHandles positions allEdges e1)
      ≠ handlePair (assignHandles positions allEdges e2) := by
  have hrev1 : hasReverseEdge allEdges e1 = true :=
    List.any_eq_true.mpr ⟨e2, h2, by simp [hs21, ht21]⟩
  have hrev2 : hasReverseEdge allEdges e2 = true :=
    List.any_eq_true.mpr ⟨e1, h1, by simp [hs21, ht21]⟩
  have hq1 : getKey positions e2.source = some pt := by rw [hs21]; exact hp2
  have hq2 : getKey positions e2.target = some ps := by rw [ht21]; exact hp1
  rcases lt_trichotomy e1.source e1.target with hlt | heq | hgt
  · have ho2 : handlePair (assignHandles positions allEdges e2) ∈ offsetPairs :=
      assignHandles_offset_mem positions allEdges e2 pt ps hq1 hq2 hrev2
        (by rw [hs21, ht21]; exact hlt)
    have ho1 : handlePair (assignHandles positions allEdges e1) ∈ primaryPairs :=
      assignHandles_primary_mem positions allEdges e1 ps pt hp1 hp2
        (fun h => lt_asymm hlt h.2)
    refine ⟨?_, ?_, ?_, ?_, ?_, Or.inr ho2, ?_⟩
    · exact ⟨fun h => absurd (primary_offset_disjoint _ ho1 _ h) (by simp),
        fun h => absurd h (lt_asymm hlt)⟩
    · exact ⟨fun _ => hlt, fun _ => ho2⟩
    · exact ⟨fun _ => lt_asymm hlt, fun _ => ho1⟩
    · exact ⟨fun h => absurd hlt ((fun hmem => absurd (primary_offset_disjoint _ h _ ho2) (by simp)) h),
        fun h => absurd hlt h⟩
    · intro h
      exact absurd (primary_offset_disjoint _ ho1 _ h.1) (by simp)
    · exact fun h => absurd (primary_offset_disjoint _ ho1 _ (h ▸ ho2)) (by simp)
  · exact absurd heq hne
  · have ho1 : handlePair (assignHandles positions allEdges e1) ∈ offsetPairs :=
      assignHandles_offset_mem positions allEdges e1 ps pt hp1 hp2 hrev1 hgt
    have ho2 : handlePair (assignHandles positions allEdges e2) ∈ primaryPairs :=
      assignHandles_primary_mem positions allEdges e2 pt ps hq1 hq2
        (fun h => by
          have h2 := h.2
          rw [hs21, ht21] at h2
          exact lt_asymm hgt h2)
    refine ⟨?_, ?_, ?_, ?_, ?_, Or.inl ho1, ?_⟩
    · exact ⟨fun _ => hgt, fun _ => ho1⟩
    · exact ⟨fun h => absurd (primary_offset_disjoint _ ho2 _ h) (by simp),
        fun h => absurd h (lt_asymm hgt)⟩
    · exact ⟨fun h => absurd hgt ((fun hmem => absurd (primary_offset_disjoint _ h _ ho1) (by simp)) h),
        fun h => absurd hgt h⟩
    · exact ⟨fun _ => lt_asymm hgt, fun _ => ho2⟩
    · intro h
      exact absurd (primary_offset_disjoint _ ho2 _ h.2) (by simp)
    · exact fun h => absurd (primary_offset_disjoint _ ho2 _ (h ▸ ho1)) (by simp)

/-- Witness for C4: the two edges of a concrete bidirectional pair receive
distinct handle pairs. -/
theorem reverse_pair_exactly_one_offset_witness :
    handlePair (assignHandles [("a", ⟨0, 0⟩), ("b", ⟨5, 3⟩)]
        [⟨"f", "a", "b", none, none, ()⟩, ⟨"g", "b", "a", none, none, ()⟩]
        ⟨"f", "a", "b", none, none, ()⟩)
      ≠ handlePair (assignHandles [("a", ⟨0, 0⟩), ("b", ⟨5, 3⟩)]
        [⟨"f", "a", "b", none, none, ()⟩, ⟨"g", "b", "a", none, none, ()⟩]
        ⟨"g", "b", "a", none, none, ()⟩) :=
  (reverse_pair_exactly_one_offset [("a", ⟨0, 0⟩), ("b", ⟨5, 3⟩)]
    [⟨"f", "a", "b", none, none, ()⟩, ⟨"g", "b", "a", none, none, ()⟩]
    ⟨"f", "a", "b", none, none, ()⟩ ⟨"g", "b", "a", none, none, ()⟩ ⟨0, 0⟩ ⟨5, 3⟩
    (List.mem_cons_self _ _) (List.mem_cons_of_mem _ (List.mem_cons_self _ _))
    rfl rfl (by decide) rfl rfl).2.2.2.2.2.2

/-- C7: with both endpoints positioned and no reverse-edge redirection
applying, the dominant axis of the position difference fixes the handle
pair exactly as specified. -/
theorem handle_assignment_dominant_axis {β : Type} (positions : AssocMap Pos)
    (allEdges : List (Edge β)) (e : Edge β) (ps pt : Pos)
    (hs : getKey positions e.source = some ps)
    (ht : getKey positions e.target = some pt)
    (hnorev : ¬(hasReverseEdge allEdges e = true ∧ e.target < e.source)) :
    (|pt.x - ps.x| ≥ |pt.y - ps.y| → pt.x - ps.x > 0 →
      handlePair (assignHandles positions allEdges e)
        = (some "right-source", some "left-target")) ∧
    (|pt.x - ps.x| ≥ |pt.y - ps.y| → ¬ pt.x - ps.x > 0 →
      handlePair (assignHandles positions allEdges e)
        = (some "left-source", some "right-target")) ∧
    (|pt.x - ps.x| < |pt.y - ps.y| → pt.y - ps.y > 0 →
      handlePair (assignHandles positions allEdges e)
        = (some "bottom-source", some "top-target")) ∧
    (|pt.x - ps.x| < |pt.y - ps.y| → ¬ pt.y - ps.y > 0 →
      handlePair (assignHandles positions allEdges e)
        = (some "top-source", some "bottom-target")) := by
  refine ⟨?_, ?_, ?_, ?_⟩ <;> intro hax hsign <;>
    simp only [assignHandles, hs, ht]
  · rw [if_pos hax, if_neg hnorev, if_pos hsign]
    rfl
  · rw [if_pos hax, if_neg hnorev, if_neg hsign]
    rfl
  · rw [if_neg (not_le.mpr hax), if_neg hnorev, if_pos hsign]
    rfl
  · rw [if_neg (not_le.mpr hax), if_neg hnorev, if_neg hsign]
    rfl

/-- Witness for C7 at a concrete horizontal, rightward edge. -/
theorem handle_assignment_dominant_axis_witness :
    handlePair (assignHandles [("a", ⟨0, 0⟩), ("b", ⟨5, 3⟩)]
        [⟨"e1", "a", "b", none, none, ()⟩] ⟨"e1", "a", "b", none, none, ()⟩)
      = (some "right-source", some "left-target") :=
  (handle_assignment_dominant_axis [("a", ⟨0, 0⟩), ("b", ⟨5, 3⟩)]
    [⟨"e1", "a", "b", none, none, ()⟩] ⟨"e1", "a", "b", none, none, ()⟩
    ⟨0, 0⟩ ⟨5, 3⟩ rfl rfl (by decide)).1 (by norm_num) (by norm_num)

/-- C9: an edge with an endpoint missing from the position map passes
through with every field, handles included, unchanged. -/
theorem unresolved_edge_passthrough {β : Type} (positions : AssocMap Pos)
    (allEdges : List (Edge β)) (e : Edge β)
    (h : getKey positions e.source = none ∨ getKey positions e.target = none) :
    assignHandles positions allEdges e = e := by
  rcases h with h | h
  · simp [assignHandles, h]
  · cases hx : getKey positions e.source <;> simp [assignHandles, h, hx]

/-- Witness for C9: an edge with prior handles is returned as-is. -/
theorem unresolved_edge_passthrough_witness :
    assignHandles ([] : AssocMap Pos) ([] : List (Edge Unit))
      ⟨"e1", "a", "b", some "left-source", some "right-target", ()⟩
      = ⟨"e1", "a", "b", some "left-source", some "right-target", ()⟩ :=
  unresolved_edge_passthrough [] [] _ (Or.inl rfl)

/-- The fields of an edge other than the two handles. -/
def edgeCore {β : Type} (e : Edge β) : String × String × String × β :=
  (e.id, e.source, e.target, e.data)

theorem edgeCore_assignHandles {β : Type} (m : AssocMap Pos) (es : List (Edge β))
    (e : Edge β) : edgeCore (assignHandles m es e) = edgeCore e := by
  cases h1 : getKey m e.source <;> cases h2 : getKey m e.target <;>
    simp [assignHandles, h1, h2, edgeCore]

/-- C10: the enhanced edge list is index-aligned with the input edge list
and preserves id, source, target and payload of every edge; only the two
handle fields can change. -/
theorem enhanced_edges_preserve_core {β : Type} (positions : AssocMap Pos)
    (es : List (Edge β)) :
    ((es.map (assignHandles positions es)).length = es.length) ∧
    ∀ k : ℕ, ((es.map (assignHandles positions es))[k]?).map edgeCore
      = (es[k]?).map edgeCore := by
  constructor
  · simp
  · intro k
    rw [List.getElem?_map]
    cases es[k]? with
    | none => rfl
    | some e => simp [edgeCore_assignHandles]

end RoomEditor
